import Mathlib

/-!
Verification of the queue state-management logic of `src/components/Queue.tsx`
(the Chavitos queue page).  The component keeps an in-memory ordered list of
queue members and exposes four pieces of logic:

* `handleNameSubmit`   — validate, parse and append a new member (join),
* `handleRemoveFromQueue` — filter the current user out of the list (leave),
* `userPosition`       — 1-based position of a member, derived via
                         `find` + `indexOf`,
* `calculateEstimatedWaitTime` — the 5-minutes-per-position display string.

The embedding below translates those functions directly.  JavaScript strings
become Lean `String`s; `Date` values become `Int` millisecond timestamps, with
"now" passed explicitly as a parameter; the early-return error paths of the
event handler become an `Except` result.  JavaScript's `trim` / `split(' ')` /
`charAt(0).toUpperCase()` are modelled on the underlying character lists with
the same semantics (for the ASCII inputs that occur here).
-/

/-- The characters JavaScript's `String.prototype.trim` removes, restricted to
the usual ASCII whitespace characters (space, tab, LF, VT, FF, CR). -/
def isJsWhitespace (c : Char) : Bool :=
  c = ' ' || c = '\t' || c = '\n' || c = '\x0b' || c = '\x0c' || c = '\r'

/-- JavaScript `raw.trim()`: drop leading and trailing whitespace. -/
def jsTrim (s : String) : String :=
  ⟨((s.data.dropWhile isJsWhitespace).reverse.dropWhile isJsWhitespace).reverse⟩

/-- JavaScript `s.split(' ')` on the character list: split at every single
space character, keeping empty segments (so `"a  b"` gives `["a", "", "b"]`
and `""` gives `[""]`), exactly as in JavaScript. -/
def splitOnSpace : List Char → List (List Char)
  | [] => [[]]
  | c :: cs =>
    match splitOnSpace cs with
    | [] => [[]]
    | r :: rs => if c = ' ' then [] :: r :: rs else (c :: r) :: rs

/-- JavaScript `part.charAt(0).toUpperCase()`: the first character of the
string, upper-cased, as a string; empty when the string is empty. -/
def jsCharAt0Upper (s : String) : String :=
  match s.data with
  | [] => ""
  | c :: _ => ⟨[c.toUpper]⟩

/-- `const nameParts = userName.trim().split(' ')` (Queue.tsx line 48). -/
def nameParts (userName : String) : List String :=
  (splitOnSpace (jsTrim userName).data).map (fun l => ⟨l⟩)

/-- `const firstName = nameParts[0]` (Queue.tsx line 49).  After a non-empty
trim the split is a non-empty list, so indexing 0 is its head. -/
def parsedFirstName (userName : String) : String :=
  (nameParts userName).headD ""

/-- `const lastInitial = nameParts.length > 1 ?
      nameParts[nameParts.length - 1].charAt(0).toUpperCase() : ''`
(Queue.tsx line 51). -/
def parsedLastInitial (userName : String) : String :=
  if 1 < (nameParts userName).length then
    jsCharAt0Upper ((nameParts userName).getLastD "")
  else ""

/-- The `QueueMember` interface of Queue.tsx.  `joinedTime` is the `Date`
value as milliseconds since the epoch. -/
structure QueueMember where
  id : Nat
  firstName : String
  lastInitial : String
  joinedTime : Int
deriving Repr, DecidableEq

/-- The seeded initial `queueList` state (Queue.tsx lines 28–35), with the
page-load instant `now` passed explicitly: John D joined 15 minutes ago,
Jane S 10 minutes ago, Mike J 5 minutes ago. -/
def seedQueue (now : Int) : List QueueMember :=
  [ ⟨1, "John", "D", now - 15 * 60000⟩,
    ⟨2, "Jane", "S", now - 10 * 60000⟩,
    ⟨3, "Mike", "J", now - 5 * 60000⟩ ]

/-- The error outcomes of the handlers.  `ValidationError` and
`DuplicateError` correspond to the two early returns of `handleNameSubmit`
(with messages "Please enter your name" and "You are already in the queue");
`NotFoundError` appears only in the spec's proposed `leave` contract. -/
inductive QueueError where
  | ValidationError
  | DuplicateError
  | NotFoundError
deriving Repr, DecidableEq

/-- `Math.max(...queueList.map(m => m.id), 0)` (Queue.tsx line 66):
the maximum of the present ids and 0. -/
def maxId (queueList : List QueueMember) : Nat :=
  (queueList.map (fun m => m.id)).foldr max 0

/-- `handleNameSubmit` (Queue.tsx lines 38–79), restricted to its queue
logic: validate that the trimmed name is non-empty, parse the name, reject a
duplicate identity key, otherwise build the new member with
`id = Math.max(...ids, 0) + 1` and `joinedTime = new Date()` and append it.
The early `return`s after `setFormError` become `Except.error`; a success
returns the updated list together with the new member. -/
def handleNameSubmit (userName : String) (now : Int)
    (queueList : List QueueMember) :
    Except QueueError (List QueueMember × QueueMember) :=
  if jsTrim userName = "" then
    .error .ValidationError
  else
    let firstName := parsedFirstName userName
    let lastInitial := parsedLastInitial userName
    if queueList.any (fun member =>
        member.firstName == firstName && member.lastInitial == lastInitial) then
      .error .DuplicateError
    else
      let newMember : QueueMember :=
        ⟨maxId queueList + 1, firstName, lastInitial, now⟩
      .ok (queueList ++ [newMember], newMember)

/-- `handleRemoveFromQueue` (Queue.tsx lines 82–89): filter out every member
matching the stored identity key.  It never reports an error. -/
def handleRemoveFromQueue (userFirstName userLastInitial : String)
    (queueList : List QueueMember) : List QueueMember :=
  queueList.filter (fun member =>
    !(member.firstName == userFirstName && member.lastInitial == userLastInitial))

/-- JavaScript `queueList.indexOf(member)`: index of the first occurrence,
`-1` when absent.  JavaScript compares array elements with `===` (reference
equality); the structural equality used here agrees with it at every call
site, because the argument is the element `find` returned — the first
element satisfying the match predicate — and any structurally equal element
would satisfy the same predicate, so the first structural occurrence is that
very element. -/
def jsIndexOf : List QueueMember → QueueMember → Int
  | [], _ => -1
  | x :: xs, m =>
    if x = m then 0
    else
      let r := jsIndexOf xs m
      if r = -1 then -1 else r + 1

/-- `userQueueMember` / `userPosition` (Queue.tsx lines 108–114):
`queueList.find(...)` followed by `queueList.indexOf(found) + 1`, or `null`
when no member matches. -/
def userPosition (userFirstName userLastInitial : String)
    (queueList : List QueueMember) : Option Int :=
  match queueList.find? (fun member =>
      member.firstName == userFirstName && member.lastInitial == userLastInitial) with
  | some mem => some (jsIndexOf queueList mem + 1)
  | none => none

/-- `calculateEstimatedWaitTime` (Queue.tsx lines 92–105): 5 minutes per
position, shown as `"Hh Mm"` when at least one full hour, else `"Mm"`. -/
def calculateEstimatedWaitTime (position : Nat) : String :=
  let estimatedMinutes := position * 5
  let hours := estimatedMinutes / 60
  let minutes := estimatedMinutes % 60
  if hours > 0 then
    toString hours ++ "h " ++ toString minutes ++ "m"
  else
    toString minutes ++ "m"

/-- Modelled from the spec: §4.1's `parseName` splits the trimmed input "on
whitespace" into tokens, with `firstName` the first token and `lastInitial`
the uppercase first character of the last token when more than one token
exists.  (The source instead splits only on the space character; this
definition exists to compare the two.) -/
def splitOnWhitespaceSeg : List Char → List (List Char)
  | [] => [[]]
  | c :: cs =>
    match splitOnWhitespaceSeg cs with
    | [] => [[]]
    | r :: rs => if isJsWhitespace c then [] :: r :: rs else (c :: r) :: rs

/-- Modelled from the spec: the whitespace-separated tokens of the trimmed
input (empty segments between consecutive whitespace characters dropped). -/
def specNameTokens (raw : String) : List String :=
  ((splitOnWhitespaceSeg (jsTrim raw).data).filter (fun t => t ≠ [])).map
    (fun l => ⟨l⟩)

/-- Modelled from the spec: the `firstName` of §4.1's whitespace-splitting
`parseName`. -/
def specParsedFirstName (raw : String) : String :=
  (specNameTokens raw).headD ""

/-- Modelled from the spec: the `lastInitial` of §4.1's whitespace-splitting
`parseName`. -/
def specParsedLastInitial (raw : String) : String :=
  if 1 < (specNameTokens raw).length then
    jsCharAt0Upper ((specNameTokens raw).getLastD "")
  else ""

/-- Modelled from the spec: §4.2's `leave(identityKey)` contract — remove the
first member matching the identity key, failing with `NotFoundError` when no
match exists.  (The source's `handleRemoveFromQueue` has no error path; this
definition exists to compare the two.) -/
def leaveSpec (userFirstName userLastInitial : String)
    (queueList : List QueueMember) : Except QueueError (List QueueMember) :=
  if queueList.any (fun member =>
      member.firstName == userFirstName && member.lastInitial == userLastInitial) then
    .ok (queueList.filter (fun member =>
      !(member.firstName == userFirstName && member.lastInitial == userLastInitial)))
  else
    .error .NotFoundError

/-- The queue states reachable from the seeded initial state by the two
mutating handlers: a successful `handleNameSubmit` (join) or a
`handleRemoveFromQueue` (leave) with any identity key. -/
inductive Reachable : List QueueMember → Prop where
  | seed (now : Int) : Reachable (seedQueue now)
  | join (raw : String) (now : Int) (l l' : List QueueMember) (m : QueueMember) :
      Reachable l → handleNameSubmit raw now l = .ok (l', m) → Reachable l'
  | leave (f li : String) (l : List QueueMember) :
      Reachable l → Reachable (handleRemoveFromQueue f li l)

example : calculateEstimatedWaitTime 1 = "5m" := by decide
example : calculateEstimatedWaitTime 12 = "1h 0m" := by decide
example : parsedFirstName "John Doe" = "John" := by decide
example : parsedLastInitial "John Doe" = "D" := by decide
example : parsedFirstName "Madonna" = "Madonna" := by decide
example : parsedLastInitial "Madonna" = "" := by decide
example : parsedFirstName "John\tDoe" = "John\tDoe" := by decide
example : specParsedFirstName "John\tDoe" = "John" := by decide
example : specParsedLastInitial "John\tDoe" = "D" := by decide

/-! ### Helper lemmas -/

theorem jsTrim_eq_empty_of_whitespace (s : String)
    (h : ∀ c ∈ s.data, isJsWhitespace c) : jsTrim s = "" := by
  unfold jsTrim
  have h1 : s.data.dropWhile isJsWhitespace = [] := List.dropWhile_eq_nil_iff.mpr h
  simp [h1]

theorem le_maxId (l : List QueueMember) (x : QueueMember) (hx : x ∈ l) :
    x.id ≤ maxId l := by
  induction l with
  | nil => cases hx
  | cons a as ih =>
    unfold maxId at *
    rcases List.mem_cons.mp hx with rfl | hmem
    · exact le_max_left _ _
    · exact le_trans (ih hmem) (le_max_right _ _)

/-- Inversion of a successful `handleNameSubmit`: the member returned is the
freshly built one and the new list is the old one with it appended. -/
theorem handleNameSubmit_ok (raw : String) (now : Int) (l l' : List QueueMember)
    (m : QueueMember) (hok : handleNameSubmit raw now l = .ok (l', m)) :
    m = ⟨maxId l + 1, parsedFirstName raw, parsedLastInitial raw, now⟩ ∧
    l' = l ++ [m] := by
  unfold handleNameSubmit at hok
  split at hok
  · cases hok
  · dsimp only at hok
    split at hok
    · cases hok
    · simp only [Except.ok.injEq, Prod.mk.injEq] at hok
      exact ⟨hok.2.symm, by rw [hok.2] at hok; exact hok.1.symm⟩

theorem jsIndexOf_append_self (l : List QueueMember) (m : QueueMember)
    (hm : m ∉ l) : jsIndexOf (l ++ [m]) m = (l.length : Int) := by
  induction l with
  | nil => simp [jsIndexOf]
  | cons x xs ih =>
    have hx : x ≠ m := fun h => hm (h ▸ List.mem_cons_self x xs)
    have hm2 : m ∉ xs := fun h => hm (List.mem_cons_of_mem _ h)
    simp only [List.cons_append, jsIndexOf, if_neg hx, List.append_eq, ih hm2]
    have hne2 : (xs.length : Int) ≠ -1 := by omega
    rw [if_neg hne2]
    simp only [List.length_cons]
    push_cast
    ring

/-! ### Claim theorems -/

/-- C4: for every position, `calculateEstimatedWaitTime` computes
`minutes = position * 5` and renders minutes-only when the total is under 60
minutes, and hours plus remaining minutes otherwise; in particular
`estimateWait 1 = "5m"`, `estimateWait 12 = "1h 0m"`,
`estimateWait 13 = "1h 5m"`. -/
theorem estimateWait_formula (position : Nat) :
    calculateEstimatedWaitTime position =
      (if position * 5 < 60 then toString (position * 5) ++ "m"
       else toString (position * 5 / 60) ++ "h " ++ toString (position * 5 % 60) ++ "m") ∧
    calculateEstimatedWaitTime 1 = "5m" ∧
    calculateEstimatedWaitTime 12 = "1h 0m" ∧
    calculateEstimatedWaitTime 13 = "1h 5m" := by
  refine ⟨?_, by decide, by decide, by decide⟩
  unfold calculateEstimatedWaitTime
  by_cases h : position * 5 < 60
  · rw [if_pos h]
    have h0 : position * 5 / 60 = 0 := Nat.div_eq_of_lt h
    have h1 : position * 5 % 60 = position * 5 := Nat.mod_eq_of_lt h
    simp [h0, h1]
  · rw [if_neg h]
    have h0 : 0 < position * 5 / 60 :=
      Nat.div_pos (le_of_not_lt h) (by norm_num)
    simp [h0]

/-- C8: for every input whose characters are all whitespace (in particular the
empty input), `handleNameSubmit` fails with `ValidationError` and returns no
updated list. -/
theorem join_whitespace_validationError (userName : String) (now : Int)
    (queueList : List QueueMember)
    (h : ∀ c ∈ userName.data, isJsWhitespace c) :
    handleNameSubmit userName now queueList = .error .ValidationError := by
  unfold handleNameSubmit
  rw [if_pos (jsTrim_eq_empty_of_whitespace userName h)]

theorem join_whitespace_validationError_witness :
    handleNameSubmit "   " 0 (seedQueue 0) = .error .ValidationError :=
  join_whitespace_validationError "   " 0 (seedQueue 0) (by decide)

/-- C9: for every identity key with no matching member present (so
`userPosition` is `none`), `handleRemoveFromQueue` completes without any
error — it has no error outcome at all — and leaves the member list
unchanged. -/
theorem leave_absent_noop (f li : String) (l : List QueueMember)
    (h : userPosition f li l = none) :
    handleRemoveFromQueue f li l = l := by
  have hall : ∀ m ∈ l,
      ¬(m.firstName == f && m.lastInitial == li) = true := by
    unfold userPosition at h
    split at h
    · cases h
    · next hfind => exact List.find?_eq_none.mp hfind
  unfold handleRemoveFromQueue
  apply List.filter_eq_self.mpr
  intro a ha
  simp only [Bool.not_eq_true'] at *
  exact Bool.not_eq_true _ ▸ (by simpa using hall a ha)

theorem leave_absent_noop_witness :
    handleRemoveFromQueue "Zed" "Q" (seedQueue 0) = seedQueue 0 :=
  leave_absent_noop "Zed" "Q" (seedQueue 0) (by decide)

/-- C6 counterexample: with the key ("Alice","B") absent from the seeded
list, the spec's `leave` contract demands `NotFoundError`, but the code's
`handleRemoveFromQueue` signals nothing and returns the list unchanged — it
has no error outcome at all. -/
theorem leave_absent_no_notFoundError :
    leaveSpec "Alice" "B" (seedQueue 0) = .error .NotFoundError ∧
    handleRemoveFromQueue "Alice" "B" (seedQueue 0) = seedQueue 0 := by
  constructor
  · rfl
  · decide

/-- C6 amended: for every identity key with no matching member present,
`handleRemoveFromQueue` completes without error (it has no error outcome)
and leaves the member list unchanged. -/
theorem leave_absent_returns_list (f li : String) (l : List QueueMember)
    (h : ∀ m ∈ l, ¬(m.firstName = f ∧ m.lastInitial = li)) :
    handleRemoveFromQueue f li l = l := by
  unfold handleRemoveFromQueue
  apply List.filter_eq_self.mpr
  intro a ha
  have := h a ha
  simp only [Bool.not_eq_true', Bool.and_eq_false_iff]
  by_cases h1 : a.firstName = f
  · right
    simp only [beq_eq_false_iff_ne, ne_eq]
    exact fun h2 => this ⟨h1, h2⟩
  · left
    simp only [beq_eq_false_iff_ne, ne_eq]
    exact h1

theorem leave_absent_returns_list_witness :
    handleRemoveFromQueue "Alice" "Z" (seedQueue 0) = seedQueue 0 :=
  leave_absent_returns_list "Alice" "Z" (seedQueue 0) (by decide)

/-- C3 counterexample: the code splits only on the space character, not on
whitespace.  On the input "John\tDoe" (tab-separated) the code's parse keeps
the whole string as `firstName` with empty `lastInitial`, whereas splitting
on whitespace as the claim states would give `("John", "D")`. -/
theorem parse_tab_counterexample :
    handleNameSubmit "John\tDoe" 0 [] =
      .ok ([⟨1, "John\tDoe", "", 0⟩], ⟨1, "John\tDoe", "", 0⟩) ∧
    specParsedFirstName "John\tDoe" = "John" ∧
    specParsedLastInitial "John\tDoe" = "D" ∧
    parsedFirstName "John\tDoe" ≠ specParsedFirstName "John\tDoe" ∧
    parsedLastInitial "John\tDoe" ≠ specParsedLastInitial "John\tDoe" := by
  refine ⟨rfl, by decide, by decide, by decide, by decide⟩

/-- C3 amended: for every raw input, a successful `handleNameSubmit` stores as
`firstName` the first segment of the trimmed input split on the space
character (not on general whitespace), and as `lastInitial` the uppercased
first character of the last segment when more than one segment exists, else
the empty string; in particular `join "Madonna"` yields identity key
`("Madonna", "")`. -/
theorem parse_splits_on_space_char (raw : String) (now : Int)
    (l l' : List QueueMember) (m : QueueMember)
    (hok : handleNameSubmit raw now l = .ok (l', m)) :
    m.firstName =
      ((splitOnSpace (jsTrim raw).data).map (fun w => (⟨w⟩ : String))).headD "" ∧
    m.lastInitial =
      (if 1 < (splitOnSpace (jsTrim raw).data).length then
        jsCharAt0Upper
          (((splitOnSpace (jsTrim raw).data).map (fun w => (⟨w⟩ : String))).getLastD "")
      else "") ∧
    (∃ q mm, handleNameSubmit "Madonna" 0 (seedQueue 0) = .ok (q, mm) ∧
      mm.firstName = "Madonna" ∧ mm.lastInitial = "") := by
  obtain ⟨hm, -⟩ := handleNameSubmit_ok raw now l l' m hok
  subst hm
  refine ⟨rfl, ?_, ⟨_, _, rfl, rfl, rfl⟩⟩
  show parsedLastInitial raw = _
  unfold parsedLastInitial nameParts
  rw [List.length_map]

theorem parse_splits_on_space_char_witness :
    (⟨4, "Alice", "B", 0⟩ : QueueMember).firstName =
      ((splitOnSpace (jsTrim "Alice Brown").data).map (fun w => (⟨w⟩ : String))).headD "" ∧
    (⟨4, "Alice", "B", 0⟩ : QueueMember).lastInitial =
      (if 1 < (splitOnSpace (jsTrim "Alice Brown").data).length then
        jsCharAt0Upper
          (((splitOnSpace (jsTrim "Alice Brown").data).map (fun w => (⟨w⟩ : String))).getLastD "")
      else "") ∧
    (∃ q mm, handleNameSubmit "Madonna" 0 (seedQueue 0) = .ok (q, mm) ∧
      mm.firstName = "Madonna" ∧ mm.lastInitial = "") :=
  parse_splits_on_space_char "Alice Brown" 0 (seedQueue 0)
    (seedQueue 0 ++ [⟨4, "Alice", "B", 0⟩]) ⟨4, "Alice", "B", 0⟩ (by rfl)

/-- C5 counterexample: ids are reused.  From the seed (where Mike J holds
id 3), removing Mike and then joining as "Alice Brown" allocates
`max(1, 2, 0) + 1 = 3` — the id of the departed member Mike — so the new id
does not differ from the id of every member ever inserted. -/
theorem id_reuse_counterexample :
    (⟨3, "Mike", "J", -300000⟩ : QueueMember) ∈ seedQueue 0 ∧
    handleNameSubmit "Alice Brown" 0 (handleRemoveFromQueue "Mike" "J" (seedQueue 0)) =
      .ok ([⟨1, "John", "D", -900000⟩, ⟨2, "Jane", "S", -600000⟩, ⟨3, "Alice", "B", 0⟩],
           ⟨3, "Alice", "B", 0⟩) := by
  exact ⟨by decide, by rfl⟩

/-- C5 amended: the id given to a newly joined member is strictly greater
than — in particular different from — the id of every member present at the
moment of the join; ids of members that have already left may be reused. -/
theorem new_id_gt_present (raw : String) (now : Int)
    (l l' : List QueueMember) (m : QueueMember)
    (hok : handleNameSubmit raw now l = .ok (l', m)) :
    ∀ x ∈ l, x.id < m.id := by
  obtain ⟨hm, -⟩ := handleNameSubmit_ok raw now l l' m hok
  intro x hx
  rw [hm]
  exact Nat.lt_succ_of_le (le_maxId l x hx)

theorem new_id_gt_present_witness :
    (⟨1, "John", "D", -900000⟩ : QueueMember).id <
      (⟨4, "Alice", "B", 0⟩ : QueueMember).id :=
  new_id_gt_present "Alice Brown" 0 (seedQueue 0)
    (seedQueue 0 ++ [⟨4, "Alice", "B", 0⟩]) ⟨4, "Alice", "B", 0⟩ (by rfl)
    ⟨1, "John", "D", -900000⟩ (by decide)

/-- C2: for every join whose parsed identity key (case-sensitive, exact
string comparison) matches a member already present, `handleNameSubmit`
fails with `DuplicateError` and returns no updated list; in particular
`join "John Doe"` on the seed fails because ("John", "D") is present. -/
theorem join_duplicate_error (raw : String) (now : Int) (l : List QueueMember)
    (hne : jsTrim raw ≠ "")
    (hdup : ∃ m ∈ l, m.firstName = parsedFirstName raw ∧
      m.lastInitial = parsedLastInitial raw) :
    handleNameSubmit raw now l = .error .DuplicateError := by
  unfold handleNameSubmit
  rw [if_neg hne]
  dsimp only
  have hany : (l.any fun member =>
      member.firstName == parsedFirstName raw &&
      member.lastInitial == parsedLastInitial raw) = true := by
    obtain ⟨m, hm, h1, h2⟩ := hdup
    refine List.any_eq_true.mpr ⟨m, hm, ?_⟩
    simp [h1, h2]
  rw [if_pos hany]

theorem join_duplicate_error_witness :
    handleNameSubmit "John Doe" 0 (seedQueue 0) = .error .DuplicateError :=
  join_duplicate_error "John Doe" 0 (seedQueue 0) (by decide)
    ⟨⟨1, "John", "D", -900000⟩, by decide, by decide, by decide⟩

/-- C1: for every raw name whose parsed identity key is not already present
(and whose trimmed value is non-empty), `handleNameSubmit` succeeds,
allocates `id = max(existing ids, 0) + 1`, records `joinedTime = now`,
appends the new member at the end of the list, and a subsequent
`userPosition` on that identity key returns the 1-based rank equal to the
new list's length. -/
theorem join_success_position (raw : String) (now : Int) (l : List QueueMember)
    (hne : jsTrim raw ≠ "")
    (habs : ∀ m ∈ l, ¬(m.firstName = parsedFirstName raw ∧
      m.lastInitial = parsedLastInitial raw)) :
    handleNameSubmit raw now l =
      .ok (l ++ [(⟨maxId l + 1, parsedFirstName raw, parsedLastInitial raw,
             now⟩ : QueueMember)],
           ⟨maxId l + 1, parsedFirstName raw, parsedLastInitial raw, now⟩) ∧
    userPosition (parsedFirstName raw) (parsedLastInitial raw)
        (l ++ [(⟨maxId l + 1, parsedFirstName raw, parsedLastInitial raw,
          now⟩ : QueueMember)]) =
      some ((l ++ [(⟨maxId l + 1, parsedFirstName raw, parsedLastInitial raw,
        now⟩ : QueueMember)]).length : Int) := by
  have hanyf : (l.any fun member =>
      member.firstName == parsedFirstName raw &&
      member.lastInitial == parsedLastInitial raw) = false := by
    rw [List.any_eq_false]
    intro m hm
    simpa using habs m hm
  have hnotmem :
      (⟨maxId l + 1, parsedFirstName raw, parsedLastInitial raw, now⟩ :
        QueueMember) ∉ l := by
    intro hmem
    exact habs _ hmem ⟨rfl, rfl⟩
  constructor
  · unfold handleNameSubmit
    rw [if_neg hne]
    dsimp only
    rw [if_neg (by simp [hanyf])]
  · unfold userPosition
    have hfind : (l.find? fun member =>
        member.firstName == parsedFirstName raw &&
        member.lastInitial == parsedLastInitial raw) = none :=
      List.find?_eq_none.mpr (fun x hx => by simpa using habs x hx)
    rw [List.find?_append, hfind]
    have hone : List.find? (fun member =>
        member.firstName == parsedFirstName raw &&
        member.lastInitial == parsedLastInitial raw)
        [(⟨maxId l + 1, parsedFirstName raw, parsedLastInitial raw, now⟩ :
          QueueMember)] =
        some ⟨maxId l + 1, parsedFirstName raw, parsedLastInitial raw, now⟩ := by
      simp [List.find?]
    simp only [Option.none_or, hone]
    rw [jsIndexOf_append_self l _ hnotmem]
    simp only [List.length_append, List.length_cons, List.length_nil,
      Option.some.injEq]
    push_cast
    omega

theorem join_success_position_witness :
    handleNameSubmit "Alice Brown" 0 (seedQueue 0) =
      .ok (seedQueue 0 ++ [(⟨maxId (seedQueue 0) + 1, parsedFirstName "Alice Brown",
             parsedLastInitial "Alice Brown", 0⟩ : QueueMember)],
           ⟨maxId (seedQueue 0) + 1, parsedFirstName "Alice Brown",
             parsedLastInitial "Alice Brown", 0⟩) ∧
    userPosition (parsedFirstName "Alice Brown") (parsedLastInitial "Alice Brown")
        (seedQueue 0 ++ [(⟨maxId (seedQueue 0) + 1, parsedFirstName "Alice Brown",
          parsedLastInitial "Alice Brown", 0⟩ : QueueMember)]) =
      some ((seedQueue 0 ++ [(⟨maxId (seedQueue 0) + 1, parsedFirstName "Alice Brown",
        parsedLastInitial "Alice Brown", 0⟩ : QueueMember)]).length : Int) :=
  join_success_position "Alice Brown" 0 (seedQueue 0) (by decide) (by decide)

/-- C7: for every queue state whose members have pairwise distinct identity
keys and in which the given key is present, `handleRemoveFromQueue` removes
exactly that one member (the list splits as `l₁ ++ m :: l₂` and the result
is `l₁ ++ l₂`), decreases the length by one, does not reorder the surviving
members, and a subsequent `userPosition` on that key returns none. -/
theorem leave_present_removes_one (f li : String) (l : List QueueMember)
    (huniq : l.Pairwise (fun a b =>
      ¬(a.firstName = b.firstName ∧ a.lastInitial = b.lastInitial)))
    (hpres : ∃ m ∈ l, m.firstName = f ∧ m.lastInitial = li) :
    ∃ l₁ m l₂, l = l₁ ++ m :: l₂ ∧ m.firstName = f ∧ m.lastInitial = li ∧
      handleRemoveFromQueue f li l = l₁ ++ l₂ ∧
      l.length = (handleRemoveFromQueue f li l).length + 1 ∧
      userPosition f li (handleRemoveFromQueue f li l) = none := by
  obtain ⟨m, hm, h1, h2⟩ := hpres
  obtain ⟨l₁, l₂, rfl⟩ := List.append_of_mem hm
  have hpa := List.pairwise_append.mp huniq
  have hl₁ : ∀ a ∈ l₁, ¬(a.firstName = f ∧ a.lastInitial = li) := by
    intro a ha hk
    exact hpa.2.2 a ha m (List.mem_cons_self m l₂)
      ⟨hk.1.trans h1.symm, hk.2.trans h2.symm⟩
  have hl₂ : ∀ b ∈ l₂, ¬(b.firstName = f ∧ b.lastInitial = li) := by
    intro b hb hk
    exact (List.pairwise_cons.mp hpa.2.1).1 b hb
      ⟨h1.trans hk.1.symm, h2.trans hk.2.symm⟩
  have hkeep : ∀ a ∈ l₁ ++ l₂,
      (!(a.firstName == f && a.lastInitial == li)) = true := by
    intro a ha
    have hna : ¬(a.firstName = f ∧ a.lastInitial = li) := by
      rcases List.mem_append.mp ha with h | h
      · exact hl₁ a h
      · exact hl₂ a h
    simp only [Bool.not_eq_eq_eq_not, Bool.not_true, Bool.and_eq_false_iff,
      beq_eq_false_iff_ne, ne_eq]
    by_cases hf : a.firstName = f
    · exact Or.inr fun h2a => hna ⟨hf, h2a⟩
    · exact Or.inl hf
  have hfl : handleRemoveFromQueue f li (l₁ ++ m :: l₂) = l₁ ++ l₂ := by
    unfold handleRemoveFromQueue
    rw [List.filter_append, List.filter_cons]
    have hpm : (!(m.firstName == f && m.lastInitial == li)) = false := by
      simp [h1, h2]
    rw [hpm]
    simp only [Bool.false_eq_true, if_false]
    rw [List.filter_eq_self.mpr fun a ha => hkeep a (List.mem_append_left _ ha),
        List.filter_eq_self.mpr fun a ha => hkeep a (List.mem_append_right _ ha)]
  refine ⟨l₁, m, l₂, rfl, h1, h2, hfl, ?_, ?_⟩
  · rw [hfl]
    simp only [List.length_append, List.length_cons]
    omega
  · rw [hfl]
    unfold userPosition
    have hfind : ((l₁ ++ l₂).find? fun member =>
        member.firstName == f && member.lastInitial == li) = none := by
      refine List.find?_eq_none.mpr fun x hx => ?_
      have := hkeep x hx
      simp only [Bool.not_eq_eq_eq_not, Bool.not_true] at this
      simp [this]
    rw [hfind]

theorem leave_present_removes_one_witness :
    ∃ l₁ m l₂, seedQueue 0 = l₁ ++ m :: l₂ ∧ m.firstName = "Jane" ∧
      m.lastInitial = "S" ∧
      handleRemoveFromQueue "Jane" "S" (seedQueue 0) = l₁ ++ l₂ ∧
      (seedQueue 0).length =
        (handleRemoveFromQueue "Jane" "S" (seedQueue 0)).length + 1 ∧
      userPosition "Jane" "S" (handleRemoveFromQueue "Jane" "S" (seedQueue 0)) =
        none :=
  leave_present_removes_one "Jane" "S" (seedQueue 0) (by decide)
    ⟨⟨2, "Jane", "S", -600000⟩, by decide, by decide, by decide⟩

/-- C10: in every queue state reachable from the seed by joins and leaves,
the ids of the members simultaneously present are pairwise distinct — each
new id is `max(present ids, 0) + 1`, strictly greater than every present id,
and removal only shrinks the list. -/
theorem reachable_ids_distinct (l : List QueueMember) (h : Reachable l) :
    l.Pairwise (fun a b => a.id ≠ b.id) := by
  induction h with
  | seed now =>
    simp [seedQueue, List.pairwise_cons]
  | join raw now l l' m hr hok ih =>
    obtain ⟨hm, hl⟩ := handleNameSubmit_ok raw now l l' m hok
    subst hl
    rw [List.pairwise_append]
    refine ⟨ih, List.pairwise_singleton _ _, ?_⟩
    intro a ha b hb
    rw [List.mem_singleton] at hb
    subst hb
    rw [hm]
    exact Nat.ne_of_lt (Nat.lt_succ_of_le (le_maxId l a ha))
  | leave f li l hr ih =>
    unfold handleRemoveFromQueue
    exact List.Pairwise.sublist (List.filter_sublist l) ih

theorem reachable_ids_distinct_witness :
    List.Pairwise (fun a b => a.id ≠ b.id) (seedQueue 0) :=
  reachable_ids_distinct (seedQueue 0) (Reachable.seed 0)
